import Mathlib

/-!
Verification of the fitnessllm-shared credential-lifecycle core.

The development shallowly embeds the Python sources:
  * `fitnessllm_shared/task_utils.py`  — `encrypt_token` / `decrypt_token`
    (AES-256-CBC with PKCS#7 padding over a `"iv_b64:ct_b64"` textual format);
  * `fitnessllm_shared/streams/strava.py` — `strava_refresh_oauth_token` and
    `strava_update_user_tokens`;
  * `fitnessllm_shared/cloud_utils.py` — `get_secret`.

Python `str` values are modelled as lists of Unicode code points (`PyStr`),
`bytes` values as lists of naturals below 256 (`Bytes`).  The AES block
permutation itself is an external library primitive and is abstracted as a
pair of functions `E D : Bytes → Bytes → Bytes` (key, 16-byte block) with the
inverse/shape assumptions stated explicitly where a theorem needs them; CBC
chaining, PKCS#7 padding, base64 and UTF-8 coding are embedded concretely,
following CPython's semantics (in particular `base64.b64decode` on `str`
input with `validate=False`: an ASCII pre-check that raises `ValueError` on
non-ASCII characters, then the lenient `binascii` decoder that discards
non-alphabet characters).
Python exceptions are embedded as the `PyExc` error type of an `Except`
result; `@beartype` runtime type-checking of annotated signatures is part of
the embedded behaviour.
-/

/-- Python `bytes` (and ciphertext/plaintext byte strings): naturals < 256. -/
abbrev Bytes := List Nat

/-- Python `str`: a sequence of Unicode code points. -/
abbrev PyStr := List Nat

/-- The Python exceptions the embedded code can raise.  `tokenRefreshError`
does not occur in the code; it is the error the specification describes and is
present so that statements about it can be made. -/
inductive PyExc where
  | formatValueError
  | asciiValueError
  | binasciiError
  | ivSizeValueError
  | blockLenValueError
  | indexError
  | unicodeDecodeError
  | unicodeEncodeError
  | keyError
  | beartypeParamViolation
  | beartypeReturnViolation
  | credsValueError
  | oauthError (code : Nat)
  | tokenRefreshError (cause : PyExc)
  deriving DecidableEq

/-- A code point Python's UTF-8 codec accepts: a Unicode scalar value
(below 0x110000 and not a surrogate). -/
def validScalar (c : Nat) : Prop := c < 1114112 ∧ (c < 55296 ∨ 57344 ≤ c)

instance (c : Nat) : Decidable (validScalar c) := by
  unfold validScalar
  exact inferInstance

/-- A Python string that `str.encode` accepts (no lone surrogates). -/
def validStr (s : PyStr) : Prop := ∀ c ∈ s, validScalar c

instance (s : PyStr) : Decidable (validStr s) := by
  unfold validStr
  exact inferInstance

/-- UTF-8 encoding of one scalar value (1–4 bytes). -/
def utf8EncodeChar (c : Nat) : Bytes :=
  if c < 128 then [c]
  else if c < 2048 then [192 + c / 64, 128 + c % 64]
  else if c < 65536 then [224 + c / 4096, 128 + c / 64 % 64, 128 + c % 64]
  else [240 + c / 262144, 128 + c / 4096 % 64, 128 + c / 64 % 64, 128 + c % 64]

/-- UTF-8 encoding of a string (total; `utf8Enc?` adds the codec's check). -/
def utf8Encode : PyStr → Bytes
  | [] => []
  | c :: cs => utf8EncodeChar c ++ utf8Encode cs

/-- Python `str.encode("utf-8")`: raises `UnicodeEncodeError` on surrogates,
modelled by `none`. -/
def utf8Enc? (s : PyStr) : Option Bytes :=
  if validStr s then some (utf8Encode s) else none

/-- Decode the first UTF-8 sequence of `b :: bs`: the scalar value and the
number of bytes consumed.  Strict, like CPython's codec: continuation bytes,
overlong forms, surrogates and values above 0x10FFFF are rejected. -/
def utf8Head (b b1 b2 b3 : Nat) : Option (Nat × Nat) :=
  if b < 128 then some (b, 1)
  else if b < 194 then none
  else if b < 224 then
    if 128 ≤ b1 ∧ b1 < 192 then some ((b - 192) * 64 + (b1 - 128), 2) else none
  else if b < 240 then
    if 128 ≤ b1 ∧ b1 < 192 ∧ 128 ≤ b2 ∧ b2 < 192 then
      if 2048 ≤ (b - 224) * 4096 + (b1 - 128) * 64 + (b2 - 128) ∧
          ((b - 224) * 4096 + (b1 - 128) * 64 + (b2 - 128) < 55296 ∨
            57344 ≤ (b - 224) * 4096 + (b1 - 128) * 64 + (b2 - 128)) then
        some ((b - 224) * 4096 + (b1 - 128) * 64 + (b2 - 128), 3)
      else none
    else none
  else if b < 245 then
    if 128 ≤ b1 ∧ b1 < 192 ∧ 128 ≤ b2 ∧ b2 < 192 ∧ 128 ≤ b3 ∧ b3 < 192 then
      if 65536 ≤ (b - 240) * 262144 + (b1 - 128) * 4096 + (b2 - 128) * 64 + (b3 - 128) ∧
          (b - 240) * 262144 + (b1 - 128) * 4096 + (b2 - 128) * 64 + (b3 - 128) < 1114112 then
        some ((b - 240) * 262144 + (b1 - 128) * 4096 + (b2 - 128) * 64 + (b3 - 128), 4)
      else none
    else none
  else none

/-- Decoding loop with explicit fuel (so that closed instances compute by
kernel reduction); one unit of fuel is spent per decoded sequence, and
`fuel ≥ length` always suffices. -/
def utf8DecodeAux : Nat → Bytes → Option PyStr
  | _, [] => some []
  | 0, _ :: _ => none
  | fuel + 1, b :: bs =>
    match utf8Head b (bs.getD 0 999) (bs.getD 1 999) (bs.getD 2 999) with
    | none => none
    | some (c, n) => (utf8DecodeAux fuel (bs.drop (n - 1))).map (fun s => c :: s)

/-- Python `bytes.decode("utf-8")` (strict), modelling failure by `none`. -/
def utf8Decode (l : Bytes) : Option PyStr := utf8DecodeAux l.length l

theorem utf8DecodeAux_fuel (fuel : Nat) :
    ∀ (fuel2 : Nat) (l : Bytes), l.length ≤ fuel → l.length ≤ fuel2 →
      utf8DecodeAux fuel l = utf8DecodeAux fuel2 l := by
  induction fuel with
  | zero =>
    intro fuel2 l hl _
    have : l = [] := List.length_eq_zero.mp (Nat.le_zero.mp hl)
    subst this
    simp only [utf8DecodeAux]
  | succ fuel ih =>
    intro fuel2 l hl hl2
    cases l with
    | nil => simp only [utf8DecodeAux]
    | cons b bs =>
      cases fuel2 with
      | zero =>
        simp only [List.length_cons] at hl2
        omega
      | succ fuel2 =>
        simp only [utf8DecodeAux]
        cases hU : utf8Head b (bs.getD 0 999) (bs.getD 1 999) (bs.getD 2 999) with
        | none => rfl
        | some p =>
          cases p with
          | mk c n =>
            simp only [List.length_cons] at hl hl2
            have hd : (bs.drop (n - 1)).length ≤ fuel := by
              simp only [List.length_drop]
              omega
            have hd2 : (bs.drop (n - 1)).length ≤ fuel2 := by
              simp only [List.length_drop]
              omega
            dsimp only
            rw [ih fuel2 (bs.drop (n - 1)) hd hd2]

theorem utf8Decode_cons (b : Nat) (bs : Bytes) :
    utf8Decode (b :: bs) =
      match utf8Head b (bs.getD 0 999) (bs.getD 1 999) (bs.getD 2 999) with
      | none => none
      | some (c, n) => (utf8Decode (bs.drop (n - 1))).map (fun s => c :: s) := by
  show utf8DecodeAux (b :: bs).length (b :: bs) = _
  simp only [List.length_cons, utf8DecodeAux]
  cases hU : utf8Head b (bs.getD 0 999) (bs.getD 1 999) (bs.getD 2 999) with
  | none => rfl
  | some p =>
    cases p with
    | mk c n =>
      have hd2 : (bs.drop (n - 1)).length ≤ bs.length := by
        simp only [List.length_drop]
        omega
      dsimp only
      rw [utf8DecodeAux_fuel bs.length (bs.drop (n - 1)).length (bs.drop (n - 1)) hd2
        (Nat.le_refl _)]
      rfl

theorem utf8EncodeChar_lt (c : Nat) (hc : validScalar c) :
    ∀ x ∈ utf8EncodeChar c, x < 256 := by
  rcases hc with ⟨h1, _⟩
  unfold utf8EncodeChar
  split_ifs with ha hb hd
  all_goals intro x hx
  all_goals simp only [List.mem_cons, List.mem_singleton, List.not_mem_nil] at hx
  all_goals rcases hx with hx | hx | hx | hx | hx <;> first | omega | (exfalso; exact hx)

theorem utf8Encode_lt (s : PyStr) (hs : validStr s) : ∀ x ∈ utf8Encode s, x < 256 := by
  induction s with
  | nil => intro x hx; simp [utf8Encode] at hx
  | cons c cs ih =>
    intro x hx
    simp only [utf8Encode, List.mem_append] at hx
    rcases hx with hx | hx
    · exact utf8EncodeChar_lt c (hs c (by simp)) x hx
    · exact ih (fun d hd => hs d (by simp [hd])) x hx

theorem utf8Decode_encodeChar (c : Nat) (hc : validScalar c) (rest : Bytes) :
    utf8Decode (utf8EncodeChar c ++ rest) = (utf8Decode rest).map (fun s => c :: s) := by
  rcases hc with ⟨h1, h2⟩
  unfold utf8EncodeChar
  split_ifs with ha hb hd
  · -- 1 byte
    have hh : ∀ x y z, utf8Head c x y z = some (c, 1) := by
      intro x y z
      unfold utf8Head
      rw [if_pos ha]
    simp only [List.cons_append, List.nil_append]
    rw [utf8Decode_cons, hh]
    rfl
  · -- 2 bytes
    have hh : ∀ y z, utf8Head (192 + c / 64) (128 + c % 64) y z = some (c, 2) := by
      intro y z
      unfold utf8Head
      rw [if_neg (by omega), if_neg (by omega), if_pos (by omega), if_pos (by omega)]
      have e : (192 + c / 64 - 192) * 64 + (128 + c % 64 - 128) = c := by omega
      rw [e]
    simp only [List.cons_append, List.nil_append]
    rw [utf8Decode_cons]
    have g0 : ((128 + c % 64) :: rest).getD 0 999 = 128 + c % 64 := rfl
    rw [g0, hh]
    rfl
  · -- 3 bytes
    have hh : ∀ z, utf8Head (224 + c / 4096) (128 + c / 64 % 64) (128 + c % 64) z =
        some (c, 3) := by
      intro z
      unfold utf8Head
      rw [if_neg (by omega), if_neg (by omega), if_neg (by omega), if_pos (by omega),
        if_pos (by omega)]
      have e : (224 + c / 4096 - 224) * 4096 + (128 + c / 64 % 64 - 128) * 64 +
          (128 + c % 64 - 128) = c := by omega
      rw [e, if_pos (by omega)]
    simp only [List.cons_append, List.nil_append]
    rw [utf8Decode_cons]
    have g0 : ((128 + c / 64 % 64) :: (128 + c % 64) :: rest).getD 0 999 =
        128 + c / 64 % 64 := rfl
    have g1 : ((128 + c / 64 % 64) :: (128 + c % 64) :: rest).getD 1 999 =
        128 + c % 64 := rfl
    rw [g0, g1, hh]
    rfl
  · -- 4 bytes
    have hh : utf8Head (240 + c / 262144) (128 + c / 4096 % 64) (128 + c / 64 % 64)
        (128 + c % 64) = some (c, 4) := by
      unfold utf8Head
      rw [if_neg (by omega), if_neg (by omega), if_neg (by omega), if_neg (by omega),
        if_pos (by omega), if_pos (by omega)]
      have e : (240 + c / 262144 - 240) * 262144 + (128 + c / 4096 % 64 - 128) * 4096 +
          (128 + c / 64 % 64 - 128) * 64 + (128 + c % 64 - 128) = c := by omega
      rw [e, if_pos (by omega)]
    simp only [List.cons_append, List.nil_append]
    rw [utf8Decode_cons]
    have g0 : ((128 + c / 4096 % 64) :: (128 + c / 64 % 64) :: (128 + c % 64) :: rest).getD
        0 999 = 128 + c / 4096 % 64 := rfl
    have g1 : ((128 + c / 4096 % 64) :: (128 + c / 64 % 64) :: (128 + c % 64) :: rest).getD
        1 999 = 128 + c / 64 % 64 := rfl
    have g2 : ((128 + c / 4096 % 64) :: (128 + c / 64 % 64) :: (128 + c % 64) :: rest).getD
        2 999 = 128 + c % 64 := rfl
    rw [g0, g1, g2, hh]
    rfl

theorem utf8Decode_encode (s : PyStr) (hs : validStr s) :
    utf8Decode (utf8Encode s) = some s := by
  induction s with
  | nil => rfl
  | cons c cs ih =>
    have h1 : validScalar c := hs c (by simp)
    have h2 : validStr cs := fun d hd => hs d (by simp [hd])
    simp only [utf8Encode]
    rw [utf8Decode_encodeChar c h1, ih h2]
    rfl

theorem utf8Enc?_eq (s : PyStr) (hs : validStr s) : utf8Enc? s = some (utf8Encode s) := by
  simp [utf8Enc?, hs]

/-- The base64 alphabet, as `base64.b64encode` uses it: value (0–63) to
ASCII code. -/
def encodeB64Char (v : Nat) : Nat :=
  if v < 26 then 65 + v
  else if v < 52 then 71 + v
  else if v < 62 then v - 4
  else if v = 62 then 43
  else 47

/-- Inverse alphabet lookup; `none` for a character outside the alphabet
(CPython's lenient decoder discards such characters). -/
def decodeB64Char (c : Nat) : Option Nat :=
  if 65 ≤ c ∧ c ≤ 90 then some (c - 65)
  else if 97 ≤ c ∧ c ≤ 122 then some (c - 71)
  else if 48 ≤ c ∧ c ≤ 57 then some (c + 4)
  else if c = 43 then some 62
  else if c = 47 then some 63
  else none

theorem decodeB64Char_encode : ∀ v : Nat, v < 64 → decodeB64Char (encodeB64Char v) = some v := by
  decide

theorem encodeB64Char_ne61 (v : Nat) : ¬ encodeB64Char v = 61 := by
  unfold encodeB64Char
  split_ifs <;> omega

theorem encodeB64Char_ne58 (v : Nat) : ¬ encodeB64Char v = 58 := by
  unfold encodeB64Char
  split_ifs <;> omega

/-- `base64.b64encode` over bytes, producing the character codes of the
encoded text (with `=` padding, code 61). -/
def b64encode : Bytes → PyStr
  | [] => []
  | [b0] => [encodeB64Char (b0 / 4), encodeB64Char (b0 % 4 * 16), 61, 61]
  | [b0, b1] =>
    [encodeB64Char (b0 / 4), encodeB64Char (b0 % 4 * 16 + b1 / 16),
      encodeB64Char (b1 % 16 * 4), 61]
  | b0 :: b1 :: b2 :: rest =>
    encodeB64Char (b0 / 4) :: encodeB64Char (b0 % 4 * 16 + b1 / 16) ::
      encodeB64Char (b1 % 16 * 4 + b2 / 64) :: encodeB64Char (b2 % 64) :: b64encode rest

/-- The state machine of CPython's `binascii.a2b_base64` in non-strict mode
(what `base64.b64decode(..., validate=False)` runs after its ASCII
pre-check): characters outside the alphabet are discarded; `qp` is the position inside the current quad, `lc` the held
bits, `pads` the running pad count; a completed pad sequence ends decoding,
discarding the remainder.  `none` models `binascii.Error` (a `ValueError`):
a trailing quad position of 1, or an incomplete final quad. -/
def b64run : PyStr → Nat → Nat → Nat → Option Bytes
  | [], qp, _, _ => if qp = 0 then some [] else none
  | c :: cs, qp, lc, pads =>
    if c = 61 then
      if 2 ≤ qp then
        if 4 ≤ qp + (pads + 1) then some []
        else b64run cs qp lc (pads + 1)
      else b64run cs qp lc pads
    else
      match decodeB64Char c with
      | none => b64run cs qp lc pads
      | some v =>
        if qp = 0 then b64run cs 1 v 0
        else if qp = 1 then (b64run cs 2 (v % 16) 0).map (fun r => (lc * 4 + v / 16) :: r)
        else if qp = 2 then (b64run cs 3 (v % 4) 0).map (fun r => (lc * 16 + v / 4) :: r)
        else (b64run cs 0 0 0).map (fun r => (lc * 64 + v) :: r)

/-- `base64.b64decode` with default `validate=False`, on a `str` argument:
CPython first encodes the string as ASCII, raising a plain
`ValueError("string argument should contain only ASCII characters")` for any
code point at or above 128, and only then runs the lenient `binascii`
decoder. -/
def b64decode (s : PyStr) : Except PyExc Bytes :=
  if ∀ c ∈ s, c < 128 then
    match b64run s 0 0 0 with
    | some bs => .ok bs
    | none => .error .binasciiError
  else .error .asciiValueError

theorem b64run_quad (v0 v1 v2 v3 : Nat) (h0 : v0 < 64) (h1 : v1 < 64) (h2 : v2 < 64)
    (h3 : v3 < 64) (rest : PyStr) :
    b64run (encodeB64Char v0 :: encodeB64Char v1 :: encodeB64Char v2 ::
        encodeB64Char v3 :: rest) 0 0 0 =
      (b64run rest 0 0 0).map
        (fun r => (v0 * 4 + v1 / 16) :: (v1 % 16 * 16 + v2 / 4) :: (v2 % 4 * 64 + v3) :: r) := by
  simp only [b64run, encodeB64Char_ne61, if_false, if_true, decodeB64Char_encode v0 h0,
    decodeB64Char_encode v1 h1, decodeB64Char_encode v2 h2, decodeB64Char_encode v3 h3]
  cases hR : b64run rest 0 0 0 with
  | none => rfl
  | some r => rfl

theorem b64run_encode (bs : Bytes) (hb : ∀ x ∈ bs, x < 256) :
    b64run (b64encode bs) 0 0 0 = some bs := by
  induction bs using b64encode.induct with
  | case1 => rfl
  | case2 b0 =>
    have e0 : b0 / 4 < 64 := by
      have := hb b0 (by simp)
      omega
    have e1 : b0 % 4 * 16 < 64 := by omega
    simp only [b64encode, b64run, encodeB64Char_ne61, if_false,
      decodeB64Char_encode _ e0, decodeB64Char_encode _ e1]
    norm_num
    omega
  | case3 b0 b1 =>
    have m0 := hb b0 (by simp)
    have m1 := hb b1 (by simp)
    have e0 : b0 / 4 < 64 := by omega
    have e1 : b0 % 4 * 16 + b1 / 16 < 64 := by omega
    have e2 : b1 % 16 * 4 < 64 := by omega
    simp only [b64encode, b64run, encodeB64Char_ne61, if_false,
      decodeB64Char_encode _ e0, decodeB64Char_encode _ e1, decodeB64Char_encode _ e2]
    norm_num
    omega
  | case4 b0 b1 b2 rest ih =>
    have m0 := hb b0 (by simp)
    have m1 := hb b1 (by simp)
    have m2 := hb b2 (by simp)
    have e0 : b0 / 4 < 64 := by omega
    have e1 : b0 % 4 * 16 + b1 / 16 < 64 := by omega
    have e2 : b1 % 16 * 4 + b2 / 64 < 64 := by omega
    have e3 : b2 % 64 < 64 := by omega
    have hrest : ∀ x ∈ rest, x < 256 := fun x hx => hb x (by simp [hx])
    simp only [b64encode]
    rw [b64run_quad _ _ _ _ e0 e1 e2 e3]
    rw [ih hrest]
    have r0 : b0 / 4 * 4 + (b0 % 4 * 16 + b1 / 16) / 16 = b0 := by omega
    have r1 : (b0 % 4 * 16 + b1 / 16) % 16 * 16 + (b1 % 16 * 4 + b2 / 64) / 4 = b1 := by omega
    have r2 : (b1 % 16 * 4 + b2 / 64) % 4 * 64 + b2 % 64 = b2 := by omega
    simp only [r0, r1, r2]
    rfl

theorem b64encode_ne58 (bs : Bytes) : ∀ c ∈ b64encode bs, ¬ c = 58 := by
  induction bs using b64encode.induct with
  | case1 => intro c hc; simp [b64encode] at hc
  | case2 b0 =>
    intro c hc
    simp only [b64encode, List.mem_cons, List.not_mem_nil, or_false] at hc
    rcases hc with h | h | h | h <;> subst h <;> first | exact encodeB64Char_ne58 _ | omega
  | case3 b0 b1 =>
    intro c hc
    simp only [b64encode, List.mem_cons, List.not_mem_nil, or_false] at hc
    rcases hc with h | h | h | h <;> subst h <;> first | exact encodeB64Char_ne58 _ | omega
  | case4 b0 b1 b2 rest ih =>
    intro c hc
    simp only [b64encode, List.mem_cons] at hc
    rcases hc with h | h | h | h | h
    · subst h; exact encodeB64Char_ne58 _
    · subst h; exact encodeB64Char_ne58 _
    · subst h; exact encodeB64Char_ne58 _
    · subst h; exact encodeB64Char_ne58 _
    · exact ih c h

theorem encodeB64Char_lt128 (v : Nat) : encodeB64Char v < 128 := by
  unfold encodeB64Char
  split_ifs <;> omega

theorem b64encode_ascii (bs : Bytes) : ∀ c ∈ b64encode bs, c < 128 := by
  induction bs using b64encode.induct with
  | case1 => intro c hc; simp [b64encode] at hc
  | case2 b0 =>
    intro c hc
    simp only [b64encode, List.mem_cons, List.not_mem_nil, or_false] at hc
    rcases hc with h | h | h | h <;> subst h <;>
      first | exact encodeB64Char_lt128 _ | omega
  | case3 b0 b1 =>
    intro c hc
    simp only [b64encode, List.mem_cons, List.not_mem_nil, or_false] at hc
    rcases hc with h | h | h | h <;> subst h <;>
      first | exact encodeB64Char_lt128 _ | omega
  | case4 b0 b1 b2 rest ih =>
    intro c hc
    simp only [b64encode, List.mem_cons] at hc
    rcases hc with h | h | h | h | h
    · subst h; exact encodeB64Char_lt128 _
    · subst h; exact encodeB64Char_lt128 _
    · subst h; exact encodeB64Char_lt128 _
    · subst h; exact encodeB64Char_lt128 _
    · exact ih c h

theorem b64decode_encode (bs : Bytes) (hb : ∀ x ∈ bs, x < 256) :
    b64decode (b64encode bs) = .ok bs := by
  unfold b64decode
  rw [if_pos (b64encode_ascii bs), b64run_encode bs hb]

/-- Python `encrypted_token.split(":")` (code point 58), with the standard
semantics of `str.split` with an explicit separator: the empty string yields
`[""]`. -/
def splitOn58 : PyStr → List PyStr
  | [] => [[]]
  | c :: cs =>
    if c = 58 then [] :: splitOn58 cs
    else
      match splitOn58 cs with
      | [] => [[c]]
      | r :: rs => (c :: r) :: rs

theorem splitOn58_no58 (s : PyStr) (h : ∀ c ∈ s, ¬ c = 58) : splitOn58 s = [s] := by
  induction s with
  | nil => rfl
  | cons c cs ih =>
    have hc : ¬ c = 58 := h c (by simp)
    have ih2 := ih (fun d hd => h d (by simp [hd]))
    simp only [splitOn58, if_neg hc, ih2]

theorem splitOn58_append (s1 s2 : PyStr) (h1 : ∀ c ∈ s1, ¬ c = 58)
    (h2 : ∀ c ∈ s2, ¬ c = 58) : splitOn58 (s1 ++ 58 :: s2) = [s1, s2] := by
  induction s1 with
  | nil =>
    simp [splitOn58, splitOn58_no58 s2 h2]
  | cons c cs ih =>
    have hc : ¬ c = 58 := h1 c (by simp)
    have ih2 := ih (fun d hd => h1 d (by simp [hd]))
    simp only [List.cons_append, splitOn58, if_neg hc, List.append_eq, ih2]

/-- Byte-wise XOR of two byte strings (the CBC chaining operation). -/
def zipXor (a b : Bytes) : Bytes := List.zipWith (fun x y => x ^^^ y) a b

theorem zipXor_length (a b : Bytes) : (zipXor a b).length = min a.length b.length := by
  simp [zipXor]

theorem zipXor_cancel (a : Bytes) : ∀ b : Bytes, a.length = b.length →
    zipXor (zipXor a b) b = a := by
  induction a with
  | nil => intro b _; cases b <;> rfl
  | cons x xs ih =>
    intro b hb
    cases b with
    | nil => simp at hb
    | cons y ys =>
      simp only [List.length_cons] at hb
      simp only [zipXor, List.zipWith_cons_cons]
      have h1 : x ^^^ y ^^^ y = x := by
        rw [Nat.xor_assoc, Nat.xor_self, Nat.xor_zero]
      rw [h1]
      have := ih ys (by omega)
      simp only [zipXor] at this
      rw [this]

theorem zipXor_lt (a : Bytes) : ∀ b : Bytes, (∀ x ∈ a, x < 256) → (∀ x ∈ b, x < 256) →
    ∀ x ∈ zipXor a b, x < 256 := by
  induction a with
  | nil => intro b _ _ x hx; simp [zipXor] at hx
  | cons z zs ih =>
    intro b ha hb x hx
    cases b with
    | nil => simp [zipXor] at hx
    | cons y ys =>
      simp only [zipXor, List.zipWith_cons_cons, List.mem_cons] at hx
      rcases hx with hx | hx
      · subst hx
        have h1 : z < 2 ^ 8 := by
          have := ha z (by simp)
          omega
        have h2 : y < 2 ^ 8 := by
          have := hb y (by simp)
          omega
        have := Nat.xor_lt_two_pow h1 h2
        omega
      · exact ih ys (fun u hu => ha u (by simp [hu])) (fun u hu => hb u (by simp [hu])) x hx

/-- Split a byte string into 16-byte blocks, fuelled so closed instances
compute by kernel reduction. -/
def toBlocksAux : Nat → Bytes → List Bytes
  | _, [] => []
  | 0, _ :: _ => []
  | fuel + 1, x :: xs => (x :: xs.take 15) :: toBlocksAux fuel (xs.drop 15)

def toBlocks (l : Bytes) : List Bytes := toBlocksAux l.length l

theorem toBlocksAux_fuel (fuel : Nat) :
    ∀ (fuel2 : Nat) (l : Bytes), l.length ≤ fuel → l.length ≤ fuel2 →
      toBlocksAux fuel l = toBlocksAux fuel2 l := by
  induction fuel with
  | zero =>
    intro fuel2 l hl _
    have : l = [] := List.length_eq_zero.mp (Nat.le_zero.mp hl)
    subst this
    simp only [toBlocksAux]
  | succ fuel ih =>
    intro fuel2 l hl hl2
    cases l with
    | nil => simp only [toBlocksAux]
    | cons x xs =>
      cases fuel2 with
      | zero =>
        simp only [List.length_cons] at hl2
        omega
      | succ fuel2 =>
        simp only [toBlocksAux, List.length_cons] at *
        have hd : (xs.drop 15).length ≤ fuel := by
          simp only [List.length_drop]
          omega
        have hd2 : (xs.drop 15).length ≤ fuel2 := by
          simp only [List.length_drop]
          omega
        rw [ih fuel2 (xs.drop 15) hd hd2]

theorem toBlocks_cons (x : Nat) (xs : Bytes) :
    toBlocks (x :: xs) = (x :: xs.take 15) :: toBlocks (xs.drop 15) := by
  show toBlocksAux (x :: xs).length (x :: xs) = _
  simp only [List.length_cons, toBlocksAux]
  rw [toBlocksAux_fuel xs.length (xs.drop 15).length (xs.drop 15)
    (by simp only [List.length_drop]; omega) (Nat.le_refl _)]
  rfl

theorem toBlocks_append16 (a r : Bytes) (h : a.length = 16) :
    toBlocks (a ++ r) = a :: toBlocks r := by
  cases a with
  | nil => simp at h
  | cons x xs =>
    have hxs : xs.length = 15 := by
      simp only [List.length_cons] at h
      omega
    rw [List.cons_append, toBlocks_cons]
    congr 1
    · rw [List.take_left' hxs]
    · rw [List.drop_left' hxs]

theorem toBlocks_join (L : List Bytes) (h : ∀ b ∈ L, b.length = 16) :
    toBlocks L.flatten = L := by
  induction L with
  | nil => rfl
  | cons b L ih =>
    rw [List.flatten_cons, toBlocks_append16 b _ (h b (by simp)),
      ih (fun c hc => h c (by simp [hc]))]

theorem flatten_toBlocksN : ∀ (n : Nat) (l : Bytes), l.length ≤ n → l.length % 16 = 0 →
    (toBlocks l).flatten = l := by
  intro n
  induction n with
  | zero =>
    intro l hl _
    have : l = [] := List.length_eq_zero.mp (Nat.le_zero.mp hl)
    subst this
    rfl
  | succ n ih =>
    intro l hl hm
    cases l with
    | nil => rfl
    | cons x xs =>
      simp only [List.length_cons] at hl hm
      have h15 : 15 ≤ xs.length := by omega
      rw [toBlocks_cons, List.flatten_cons]
      rw [ih (xs.drop 15) (by simp only [List.length_drop]; omega)
        (by simp only [List.length_drop]; omega)]
      rw [List.cons_append, List.take_append_drop]

theorem flatten_toBlocks (l : Bytes) (hm : l.length % 16 = 0) : (toBlocks l).flatten = l :=
  flatten_toBlocksN l.length l (Nat.le_refl _) hm

theorem toBlocks_len16N : ∀ (n : Nat) (l : Bytes), l.length ≤ n → l.length % 16 = 0 →
    ∀ b ∈ toBlocks l, b.length = 16 := by
  intro n
  induction n with
  | zero =>
    intro l hl _
    have : l = [] := List.length_eq_zero.mp (Nat.le_zero.mp hl)
    subst this
    intro b hb
    simp [toBlocks, toBlocksAux] at hb
  | succ n ih =>
    intro l hl hm
    cases l with
    | nil => intro b hb; simp [toBlocks, toBlocksAux] at hb
    | cons x xs =>
      simp only [List.length_cons] at hl hm
      have h15 : 15 ≤ xs.length := by omega
      intro b hb
      rw [toBlocks_cons] at hb
      simp only [List.mem_cons] at hb
      rcases hb with hb | hb
      · subst hb
        simp only [List.length_cons, List.length_take]
        omega
      · exact ih (xs.drop 15) (by simp only [List.length_drop]; omega)
          (by simp only [List.length_drop]; omega) b hb

theorem toBlocks_len16 (l : Bytes) (hm : l.length % 16 = 0) :
    ∀ b ∈ toBlocks l, b.length = 16 :=
  toBlocks_len16N l.length l (Nat.le_refl _) hm

theorem toBlocks_mem_memN : ∀ (n : Nat) (l : Bytes), l.length ≤ n →
    ∀ b ∈ toBlocks l, ∀ x ∈ b, x ∈ l := by
  intro n
  induction n with
  | zero =>
    intro l hl
    have : l = [] := List.length_eq_zero.mp (Nat.le_zero.mp hl)
    subst this
    intro b hb
    simp [toBlocks, toBlocksAux] at hb
  | succ n ih =>
    intro l hl
    cases l with
    | nil => intro b hb; simp [toBlocks, toBlocksAux] at hb
    | cons z xs =>
      simp only [List.length_cons] at hl
      intro b hb x hx
      rw [toBlocks_cons] at hb
      simp only [List.mem_cons] at hb
      rcases hb with hb | hb
      · subst hb
        simp only [List.mem_cons] at hx
        rcases hx with hx | hx
        · simp [hx]
        · exact List.mem_cons_of_mem z (List.take_subset 15 xs hx)
      · have := ih (xs.drop 15) (by simp only [List.length_drop]; omega) b hb x hx
        exact List.mem_cons_of_mem z (List.drop_subset 15 xs this)

theorem toBlocks_mem_mem (l : Bytes) : ∀ b ∈ toBlocks l, ∀ x ∈ b, x ∈ l :=
  toBlocks_mem_memN l.length l (Nat.le_refl _)

theorem toBlocks_ne_nil (l : Bytes) (h : ¬ l = []) : ¬ toBlocks l = [] := by
  cases l with
  | nil => exact absurd rfl h
  | cons x xs =>
    rw [toBlocks_cons]
    simp

/-- CBC-mode encryption over 16-byte blocks with block primitive `E`:
each plaintext block is XORed with the previous ciphertext block (the IV for
the first) before being run through `E`.  This is what
`cryptography`'s `Cipher(algorithms.AES(key), modes.CBC(iv)).encryptor()`
computes. -/
def cbcEncBlocks (E : Bytes → Bytes → Bytes) (k : Bytes) : Bytes → List Bytes → List Bytes
  | _, [] => []
  | prev, b :: bs =>
    E k (zipXor b prev) :: cbcEncBlocks E k (E k (zipXor b prev)) bs

/-- CBC-mode decryption over 16-byte blocks with block primitive `D`. -/
def cbcDecBlocks (D : Bytes → Bytes → Bytes) (k : Bytes) : Bytes → List Bytes → List Bytes
  | _, [] => []
  | prev, c :: cs => zipXor (D k c) prev :: cbcDecBlocks D k c cs

theorem cbcDec_cbcEnc (E D : Bytes → Bytes → Bytes) (k : Bytes)
    (hED : ∀ kk b, b.length = 16 → D kk (E kk b) = b)
    (hE16 : ∀ kk b, b.length = 16 → (E kk b).length = 16) :
    ∀ (bs : List Bytes) (prev : Bytes), prev.length = 16 → (∀ b ∈ bs, b.length = 16) →
      cbcDecBlocks D k prev (cbcEncBlocks E k prev bs) = bs := by
  intro bs
  induction bs with
  | nil => intro prev _ _; rfl
  | cons b bs ih =>
    intro prev hprev hbs
    have hb : b.length = 16 := hbs b (by simp)
    have hx : (zipXor b prev).length = 16 := by
      rw [zipXor_length, hb, hprev]
      rfl
    simp only [cbcEncBlocks, cbcDecBlocks]
    rw [hED k (zipXor b prev) hx, zipXor_cancel b prev (by omega),
      ih (E k (zipXor b prev)) (hE16 k _ hx) (fun c hc => hbs c (by simp [hc]))]

theorem cbcEncBlocks_len16 (E : Bytes → Bytes → Bytes) (k : Bytes)
    (hE16 : ∀ kk b, b.length = 16 → (E kk b).length = 16) :
    ∀ (bs : List Bytes) (prev : Bytes), prev.length = 16 → (∀ b ∈ bs, b.length = 16) →
      ∀ c ∈ cbcEncBlocks E k prev bs, c.length = 16 := by
  intro bs
  induction bs with
  | nil => intro prev _ _ c hc; simp [cbcEncBlocks] at hc
  | cons b bs ih =>
    intro prev hprev hbs c hc
    have hx : (zipXor b prev).length = 16 := by
      rw [zipXor_length, hbs b (by simp), hprev]
      rfl
    simp only [cbcEncBlocks, List.mem_cons] at hc
    rcases hc with hc | hc
    · subst hc
      exact hE16 k _ hx
    · exact ih (E k (zipXor b prev)) (hE16 k _ hx)
        (fun d hd => hbs d (by simp [hd])) c hc

theorem cbcEncBlocks_lt (E : Bytes → Bytes → Bytes) (k : Bytes)
    (hE255 : ∀ kk b, (∀ x ∈ b, x < 256) → ∀ x ∈ E kk b, x < 256) :
    ∀ (bs : List Bytes) (prev : Bytes), (∀ x ∈ prev, x < 256) →
      (∀ b ∈ bs, ∀ x ∈ b, x < 256) →
      ∀ c ∈ cbcEncBlocks E k prev bs, ∀ x ∈ c, x < 256 := by
  intro bs
  induction bs with
  | nil => intro prev _ _ c hc; simp [cbcEncBlocks] at hc
  | cons b bs ih =>
    intro prev hprev hbs c hc
    have hx : ∀ x ∈ E k (zipXor b prev), x < 256 :=
      hE255 k _ (zipXor_lt b prev (hbs b (by simp)) hprev)
    simp only [cbcEncBlocks, List.mem_cons] at hc
    rcases hc with hc | hc
    · subst hc
      exact hx
    · exact ih (E k (zipXor b prev)) hx (fun d hd => hbs d (by simp [hd])) c hc

theorem cbcEncBlocks_length (E : Bytes → Bytes → Bytes) (k : Bytes) :
    ∀ (bs : List Bytes) (prev : Bytes), (cbcEncBlocks E k prev bs).length = bs.length := by
  intro bs
  induction bs with
  | nil => intro prev; rfl
  | cons b bs ih =>
    intro prev
    simp only [cbcEncBlocks, List.length_cons, ih]

theorem cbcDecBlocks_length (D : Bytes → Bytes → Bytes) (k : Bytes) :
    ∀ (cs : List Bytes) (prev : Bytes), (cbcDecBlocks D k prev cs).length = cs.length := by
  intro cs
  induction cs with
  | nil => intro prev; rfl
  | cons c cs ih =>
    intro prev
    simp only [cbcDecBlocks, List.length_cons, ih]

theorem flatten_len16 (L : List Bytes) (h : ∀ b ∈ L, b.length = 16) :
    L.flatten.length = 16 * L.length := by
  induction L with
  | nil => rfl
  | cons b L ih =>
    rw [List.flatten_cons, List.length_append, h b (by simp),
      ih (fun c hc => h c (by simp [hc])), List.length_cons]
    ring

/-- Key normalization as written in `encrypt_token`: UTF-8 key bytes are
zero-padded (`ljust(32, b"\0")`) when shorter than 32 and truncated when
longer. -/
def encKeyBytes (kb : Bytes) : Bytes :=
  if kb.length < 32 then kb ++ List.replicate (32 - kb.length) 0
  else if 32 < kb.length then kb.take 32
  else kb

/-- Key normalization as written in `decrypt_token` (guarded by
`len(key_bytes) != 32`); extensionally the same rule. -/
def decKeyBytes (kb : Bytes) : Bytes :=
  if ¬ kb.length = 32 then
    if kb.length < 32 then kb ++ List.replicate (32 - kb.length) 0
    else kb.take 32
  else kb

theorem decKeyBytes_eq (kb : Bytes) : decKeyBytes kb = encKeyBytes kb := by
  unfold decKeyBytes encKeyBytes
  split_ifs <;> first | rfl | omega

theorem encKeyBytes_length (kb : Bytes) : (encKeyBytes kb).length = 32 := by
  unfold encKeyBytes
  split_ifs with h1 h2
  · simp only [List.length_append, List.length_replicate]
    omega
  · simp only [List.length_take]
    omega
  · omega

/-- PKCS#7 padding at block size 16, as applied by
`padding.PKCS7(128).padder()`: always adds between 1 and 16 bytes, each equal
to the number of bytes added. -/
def pkcs7Pad (d : Bytes) : Bytes :=
  d ++ List.replicate (16 - d.length % 16) (16 - d.length % 16)

theorem pkcs7Pad_mod (d : Bytes) : (pkcs7Pad d).length % 16 = 0 := by
  simp only [pkcs7Pad, List.length_append, List.length_replicate]
  omega

theorem pkcs7Pad_length (d : Bytes) :
    (pkcs7Pad d).length = d.length + (16 - d.length % 16) := by
  simp only [pkcs7Pad, List.length_append, List.length_replicate]

theorem pkcs7Pad_ne_nil (d : Bytes) : ¬ pkcs7Pad d = [] := by
  intro h
  have := congrArg List.length h
  simp only [pkcs7Pad, List.length_append, List.length_replicate, List.length_nil] at this
  omega

theorem pkcs7Pad_lt (d : Bytes) (hd : ∀ x ∈ d, x < 256) : ∀ x ∈ pkcs7Pad d, x < 256 := by
  intro x hx
  simp only [pkcs7Pad, List.mem_append] at hx
  rcases hx with hx | hx
  · exact hd x hx
  · have := List.eq_of_mem_replicate hx
    omega

/-- The lenient padding strip of `decrypt_token`: read the last byte as the
padding length and strip that many bytes when it lies in 1..16, otherwise
return the data unchanged. -/
def stripLenient (dd : Bytes) : Bytes :=
  let p := dd.getLast?.getD 0
  if 0 < p ∧ p ≤ 16 then dd.take (dd.length - p) else dd

theorem getLast?_replicate (p a : Nat) (h : ¬ p = 0) :
    (List.replicate p a).getLast? = some a := by
  cases p with
  | zero => exact absurd rfl h
  | succ n =>
    rw [List.replicate_succ', List.getLast?_concat]

theorem stripLenient_pkcs7 (d : Bytes) : stripLenient (pkcs7Pad d) = d := by
  have hp : 1 ≤ 16 - d.length % 16 ∧ 16 - d.length % 16 ≤ 16 := by omega
  have hlast : (pkcs7Pad d).getLast? = some (16 - d.length % 16) := by
    unfold pkcs7Pad
    rw [List.getLast?_append_of_ne_nil, getLast?_replicate _ _ (by omega)]
    intro h
    have := congrArg List.length h
    simp only [List.length_replicate, List.length_nil] at this
    omega
  unfold stripLenient
  rw [hlast]
  simp only [Option.getD_some]
  rw [if_pos (by omega)]
  have hl : (pkcs7Pad d).length - (16 - d.length % 16) = d.length := by
    rw [pkcs7Pad_length]
    omega
  rw [hl]
  unfold pkcs7Pad
  exact List.take_left' rfl

/-- `encrypt_token(token, key)` from `task_utils.py`, for `str` arguments
(the `@beartype`-accepted case).  The fresh 16-byte IV drawn from
`os.urandom(16)` is passed explicitly, and the AES block permutation `E` is a
parameter. -/
def encrypt_token (token key : PyStr) (E : Bytes → Bytes → Bytes) (iv : Bytes) :
    Except PyExc PyStr :=
  match utf8Enc? token with
  | none => .error .unicodeEncodeError
  | some token_bytes =>
    match utf8Enc? key with
    | none => .error .unicodeEncodeError
    | some kb =>
      let key_bytes := encKeyBytes kb
      let padded_data := pkcs7Pad token_bytes
      let encrypted_data := (cbcEncBlocks E key_bytes iv (toBlocks padded_data)).flatten
      .ok (b64encode iv ++ 58 :: b64encode encrypted_data)

/-- `decrypt_token(encrypted_token, key)` from `task_utils.py`, for `str`
arguments, with the AES block inverse `D` a parameter.  The error cases, in
the order the Python code can raise them: the split-shape `ValueError`, the
ASCII-precheck `ValueError` or `binascii.Error` of `base64.b64decode`,
`UnicodeEncodeError` from
`key.encode`, the `ValueError` of `modes.CBC(iv)` for a wrong-size IV, the
`ValueError` of `finalize()` for data that is not a multiple of the block
size, the `IndexError` of `decrypted_data[-1]` on empty data, and
`UnicodeDecodeError` from `.decode("utf-8")`. -/
def decrypt_token (encrypted_token key : PyStr) (D : Bytes → Bytes → Bytes) :
    Except PyExc PyStr :=
  match splitOn58 encrypted_token with
  | [p0, p1] =>
    match b64decode p0 with
    | .error e => .error e
    | .ok iv =>
      match b64decode p1 with
      | .error e => .error e
      | .ok encrypted_data =>
        match utf8Enc? key with
        | none => .error .unicodeEncodeError
        | some kb =>
          let key_bytes := decKeyBytes kb
          if iv.length = 16 then
            if encrypted_data.length % 16 = 0 then
              let dd := (cbcDecBlocks D key_bytes iv (toBlocks encrypted_data)).flatten
              if dd = [] then .error .indexError
              else
                match utf8Decode (stripLenient dd) with
                | some s => .ok s
                | none => .error .unicodeDecodeError
            else .error .blockLenValueError
          else .error .ivSizeValueError
  | _ => .error .formatValueError

/-- A value passed for the `key` parameter: Python `str` or `bytes`. -/
inductive StrOrBytes where
  | str (s : PyStr)
  | bytes (b : Bytes)

/-- Calling `encrypt_token` through its `@beartype` wrapper: the signature
annotates `key: str`, so a `bytes` key is rejected with a parameter-type
violation before the body (whose `isinstance(key, str)` branch could handle
it) ever runs. -/
def encrypt_token_typed (token : PyStr) (key : StrOrBytes) (E : Bytes → Bytes → Bytes)
    (iv : Bytes) : Except PyExc PyStr :=
  match key with
  | .str ks => encrypt_token token ks E iv
  | .bytes _ => .error .beartypeParamViolation

/-- Calling `decrypt_token` through its `@beartype` wrapper: the signature
annotates `key: str` (although the docstring says "str or bytes"), so a
`bytes` key is rejected with a parameter-type violation. -/
def decrypt_token_typed (encrypted_token : PyStr) (key : StrOrBytes)
    (D : Bytes → Bytes → Bytes) : Except PyExc PyStr :=
  match key with
  | .str ks => decrypt_token encrypted_token ks D
  | .bytes _ => .error .beartypeParamViolation

deriving instance DecidableEq for Except

/-- Field names of the `users/{uid}/stream/strava` document; `extra n` stands
for any other (unrelated sibling) field. -/
inductive TokField where
  | accessToken
  | refreshToken
  | expiresAt
  | lastTokenRefresh
  | extra (n : Nat)
  deriving DecidableEq

/-- Field lookup in a document, first binding wins. -/
def dget {α : Type} : List (TokField × α) → TokField → Option α
  | [], _ => none
  | (k, v) :: r, f => if k = f then some v else dget r f

/-- Events observable on the collaborators during a refresh: the outbound
OAuth call and the document-store operations. -/
inductive FsEv where
  | evOauth
  | evGet
  | evSet
  | evUpdate
  deriving DecidableEq

/-- `strava_update_user_tokens(db, uid, new_tokens)` from `streams/strava.py`.
The document store (Firestore) is embedded as the optional field list of the
`users/{uid}/stream/strava` document; `get` reads it, `set(new_tokens,
merge=True)` on an absent document creates it with exactly the given fields,
and `update({...})` overwrites the four named fields and touches no other
(the written fields are prepended, `dget` takes the first binding).
Reading `new_tokens["accessToken"]` etc. in the `update` branch raises
`KeyError` when absent.  Returns the collaborator events and the new store
state. -/
def strava_update_user_tokens {α : Type} (store : Option (List (TokField × α)))
    (new_tokens : List (TokField × α)) :
    List FsEv × Except PyExc (Option (List (TokField × α))) :=
  match store with
  | none => ([FsEv.evGet, FsEv.evSet], .ok (some new_tokens))
  | some d =>
    match dget new_tokens .accessToken, dget new_tokens .refreshToken,
        dget new_tokens .expiresAt, dget new_tokens .lastTokenRefresh with
    | some a, some r, some e2, some l =>
      ([FsEv.evGet, FsEv.evUpdate],
        .ok (some ((TokField.accessToken, a) :: (TokField.refreshToken, r) ::
          (TokField.expiresAt, e2) :: (TokField.lastTokenRefresh, l) :: d)))
    | _, _, _, _ => ([FsEv.evGet], .error .keyError)

/-- Values stored in the token document: encrypted-token strings, the
provider's `expires_at` number, and the `lastTokenRefresh` timestamp. -/
inductive PyVal where
  | vStr (s : PyStr)
  | vNat (n : Nat)
  | vTime (t : Nat)
  deriving DecidableEq

/-- The OAuth client's response shape,
`{access_token, refresh_token, expires_at}`. -/
structure TokResp where
  access_token : PyStr
  refresh_token : PyStr
  expires_at : Nat

/-- `strava_refresh_oauth_token(db, uid, refresh_token)` from
`streams/strava.py`.  The collaborators are passed explicitly: the fetched
encryption key (`get_secret(...)["token"]`), the fetched provider credentials
(`strava_secret.get("client_id"/"client_secret")`, `none` when absent — and
Python's `if not client_id` also treats an empty string as missing), the
OAuth client call, the AES block maps with the two fresh IVs, and `now` for
`update_last_refresh()`.  The `try` block wraps everything from the provider
call to the store write; its `except` clause logs and re-raises the original
exception unchanged (a bare `raise`).  Returns the events observed on the
collaborators, the call's result, and the resulting store state. -/
def strava_refresh_oauth_token
    (encryption_key : PyStr)
    (client_id client_secret : Option PyStr)
    (oauth : PyStr → PyStr → PyStr → Except PyExc TokResp)
    (E D : Bytes → Bytes → Bytes) (iv1 iv2 : Bytes)
    (now : Nat)
    (refresh_token : PyStr)
    (store : Option (List (TokField × PyVal))) :
    List FsEv × Except PyExc Unit × Option (List (TokField × PyVal)) :=
  if client_id.getD [] = [] ∨ client_secret.getD [] = [] then
    ([], .error .credsValueError, store)
  else
    match decrypt_token refresh_token encryption_key D with
    | .error e => ([], .error e, store)
    | .ok rt =>
      match oauth (client_id.getD []) (client_secret.getD []) rt with
      | .error e => ([FsEv.evOauth], .error e, store)
      | .ok resp =>
        match encrypt_token resp.access_token encryption_key E iv1 with
        | .error e => ([FsEv.evOauth], .error e, store)
        | .ok encA =>
          match encrypt_token resp.refresh_token encryption_key E iv2 with
          | .error e => ([FsEv.evOauth], .error e, store)
          | .ok encR =>
            let new_tokens := [(TokField.accessToken, PyVal.vStr encA),
              (TokField.refreshToken, PyVal.vStr encR),
              (TokField.expiresAt, PyVal.vNat resp.expires_at),
              (TokField.lastTokenRefresh, PyVal.vTime now)]
            match strava_update_user_tokens store new_tokens with
            | (evs, .error e) => (FsEv.evOauth :: evs, .error e, store)
            | (evs, .ok store2) => (FsEv.evOauth :: evs, .ok (), store2)

/-- JSON values, for the payloads `get_secret` may parse. -/
inductive JVal where
  | jstr (s : PyStr)
  | jnum (n : Int)
  | jbool (b : Bool)
  | jnull
  | jarr (xs : List JVal)
  | jobj (fields : List (PyStr × JVal))

/-- `get_secret(name)` from `cloud_utils.py`.  The secret-manager collaborator
is abstracted to the payload bytes it returns for the name, and `json.loads`
to the parameter `loads` (`none` modelling `JSONDecodeError`).  The embedded
behaviour: `KeyError` when `PROJECT_ID` is unset; decode the payload as UTF-8;
try `json.loads` and return the parsed value, or — in the `except
JSONDecodeError` branch — return the raw string.  Because the function is
annotated `-> dict` under `@beartype`, any return value that is not a dict
(the raw-string fallback, or a JSON payload that parses to a non-object) is
rejected with a return-type violation. -/
def get_secret (loads : PyStr → Option JVal) (projectIdSet : Bool) (data : Bytes) :
    Except PyExc JVal :=
  if ¬ projectIdSet then .error .keyError
  else
    match utf8Decode data with
    | none => .error .unicodeDecodeError
    | some payload =>
      match loads payload with
      | some v =>
        match v with
        | .jobj f => .ok (.jobj f)
        | _ => .error .beartypeReturnViolation
      | none => .error .beartypeReturnViolation

theorem decrypt_token_wellformed (key : PyStr) (hkey : validStr key)
    (D : Bytes → Bytes → Bytes) (iv ct : Bytes)
    (hiv : iv.length = 16) (hivb : ∀ x ∈ iv, x < 256) (hctb : ∀ x ∈ ct, x < 256)
    (hct : ct.length % 16 = 0) :
    decrypt_token (b64encode iv ++ 58 :: b64encode ct) key D =
      (if (cbcDecBlocks D (decKeyBytes (utf8Encode key)) iv (toBlocks ct)).flatten = [] then
        .error .indexError
      else
        match utf8Decode (stripLenient
            ((cbcDecBlocks D (decKeyBytes (utf8Encode key)) iv (toBlocks ct)).flatten)) with
        | some s => .ok s
        | none => .error .unicodeDecodeError) := by
  have hsplit : splitOn58 (b64encode iv ++ 58 :: b64encode ct) =
      [b64encode iv, b64encode ct] :=
    splitOn58_append _ _ (b64encode_ne58 iv) (b64encode_ne58 ct)
  unfold decrypt_token
  rw [hsplit]
  dsimp only
  rw [b64decode_encode iv hivb, b64decode_encode ct hctb, utf8Enc?_eq key hkey]
  dsimp only
  rw [if_pos hiv, if_pos hct]

/-- C1: for every plaintext string `s` and secrets `k1`, `k2` whose 32-byte
normalizations (zero-pad / truncate) agree, `decrypt(encrypt(s, k1), k2)`
returns `s`; with `k1 = k2 = k` this is the round trip
`decrypt(encrypt(s, k), k) = s`.  The AES block maps `E`, `D` are abstracted,
assumed mutually inverse, 16-byte- and byte-valued on blocks; the IV is the
16 random bytes `os.urandom(16)` produced. -/
theorem c1_round_trip
    (E D : Bytes → Bytes → Bytes)
    (hED : ∀ kk b, b.length = 16 → D kk (E kk b) = b)
    (hE16 : ∀ kk b, b.length = 16 → (E kk b).length = 16)
    (hE255 : ∀ kk b, (∀ x ∈ b, x < 256) → ∀ x ∈ E kk b, x < 256)
    (s k1 k2 : PyStr) (hs : validStr s) (hk1 : validStr k1) (hk2 : validStr k2)
    (iv : Bytes) (hiv : iv.length = 16) (hivb : ∀ x ∈ iv, x < 256)
    (hnorm : encKeyBytes (utf8Encode k1) = encKeyBytes (utf8Encode k2))
    (tok : PyStr) (htok : encrypt_token s k1 E iv = .ok tok) :
    decrypt_token tok k2 D = .ok s := by
  unfold encrypt_token at htok
  rw [utf8Enc?_eq s hs, utf8Enc?_eq k1 hk1] at htok
  dsimp only at htok
  have htok2 : tok = b64encode iv ++ 58 :: b64encode
      ((cbcEncBlocks E (encKeyBytes (utf8Encode k1)) iv
        (toBlocks (pkcs7Pad (utf8Encode s)))).flatten) := by
    injection htok with h
    exact h.symm
  subst htok2
  have hpadmod : (pkcs7Pad (utf8Encode s)).length % 16 = 0 := pkcs7Pad_mod _
  have hpblocks16 : ∀ b ∈ toBlocks (pkcs7Pad (utf8Encode s)), b.length = 16 :=
    toBlocks_len16 _ hpadmod
  have hencb16 : ∀ c ∈ cbcEncBlocks E (encKeyBytes (utf8Encode k1)) iv
      (toBlocks (pkcs7Pad (utf8Encode s))), c.length = 16 :=
    cbcEncBlocks_len16 E _ hE16 _ iv hiv hpblocks16
  have hctmod : ((cbcEncBlocks E (encKeyBytes (utf8Encode k1)) iv
      (toBlocks (pkcs7Pad (utf8Encode s)))).flatten).length % 16 = 0 := by
    rw [flatten_len16 _ hencb16]
    omega
  have hctb : ∀ x ∈ (cbcEncBlocks E (encKeyBytes (utf8Encode k1)) iv
      (toBlocks (pkcs7Pad (utf8Encode s)))).flatten, x < 256 := by
    intro x hx
    rcases List.mem_flatten.mp hx with ⟨c, hc, hxc⟩
    refine cbcEncBlocks_lt E _ hE255 _ iv hivb ?_ c hc x hxc
    intro b hb y hy
    exact pkcs7Pad_lt _ (utf8Encode_lt s hs) y (toBlocks_mem_mem _ b hb y hy)
  rw [decrypt_token_wellformed k2 hk2 D iv _ hiv hivb hctb hctmod]
  have hkey2 : decKeyBytes (utf8Encode k2) = encKeyBytes (utf8Encode k1) := by
    rw [decKeyBytes_eq, hnorm]
  rw [hkey2]
  rw [toBlocks_join _ hencb16]
  rw [cbcDec_cbcEnc E D _ hED hE16 _ iv hiv hpblocks16]
  rw [flatten_toBlocks _ hpadmod]
  rw [if_neg (pkcs7Pad_ne_nil _)]
  rw [stripLenient_pkcs7, utf8Decode_encode s hs]

theorem c1_round_trip_witness :
    decrypt_token (b64encode (List.replicate 16 0) ++ 58 ::
        b64encode (65 :: List.replicate 15 15)) [107] (fun _ b => b) = .ok [65] :=
  c1_round_trip (fun _ b => b) (fun _ b => b)
    (fun _ _ _ => rfl) (fun _ _ h => h) (fun _ _ h => h)
    [65] [107] [107] (by decide) (by decide) (by decide)
    (List.replicate 16 0) (by decide) (by decide)
    rfl
    (b64encode (List.replicate 16 0) ++ 58 :: b64encode (65 :: List.replicate 15 15))
    (by decide)

/-- C2 counterexample: a two-part input whose parts are not valid base64
(each contains `!`, code 33, outside the alphabet) on which `decrypt_token`
does not fail with a malformed-token error at all: CPython's lenient
`b64decode` discards the `!` and decryption succeeds. -/
theorem c2_counterexample :
    splitOn58 ((33 :: b64encode (List.replicate 16 0)) ++ 58 :: 33 ::
        b64encode (List.replicate 15 65 ++ [15])) =
      [33 :: b64encode (List.replicate 16 0),
        33 :: b64encode (List.replicate 15 65 ++ [15])] ∧
    decodeB64Char 33 = none ∧ ¬ (33 = 61) ∧
    decrypt_token ((33 :: b64encode (List.replicate 16 0)) ++ 58 :: 33 ::
        b64encode (List.replicate 15 65 ++ [15])) [107] (fun _ b => b) =
      .ok [65] := by
  refine ⟨by decide, by decide, by decide, by decide⟩

/-- C2 (amended): `decrypt_token` fails with the format `ValueError` exactly
when the split on `":"` does not yield two parts (including the empty
string).  At the base64 stage the error of `base64.b64decode` on the first
failing part propagates, and that error is: the plain ASCII-precheck
`ValueError` when the part contains any non-ASCII character, and the
distinct `binascii.Error` when the all-ASCII part — after the lenient
discarding of non-alphabet characters — has a residual length or padding
problem; parts that are invalid base64 merely by containing extraneous
ASCII characters are decoded leniently and need not fail. -/
theorem c2_malformed_amended (tok key : PyStr) (D : Bytes → Bytes → Bytes) :
    (¬ (splitOn58 tok).length = 2 →
      decrypt_token tok key D = .error .formatValueError) ∧
    (∀ p0 p1 e, splitOn58 tok = [p0, p1] → b64decode p0 = .error e →
      decrypt_token tok key D = .error e) ∧
    (∀ p0 p1 iv e, splitOn58 tok = [p0, p1] → b64decode p0 = .ok iv →
      b64decode p1 = .error e →
      decrypt_token tok key D = .error e) ∧
    (∀ p : PyStr, (¬ ∀ c ∈ p, c < 128) → b64decode p = .error .asciiValueError) ∧
    (∀ p : PyStr, (∀ c ∈ p, c < 128) → b64run p 0 0 0 = none →
      b64decode p = .error .binasciiError) := by
  refine ⟨?_, ?_, ?_, ?_, ?_⟩
  · intro h
    unfold decrypt_token
    cases hs : splitOn58 tok with
    | nil => rfl
    | cons a l =>
      cases l with
      | nil => rfl
      | cons b l2 =>
        cases l2 with
        | nil =>
          rw [hs] at h
          simp at h
        | cons c l3 => rfl
  · intro p0 p1 e hs hb
    unfold decrypt_token
    rw [hs]
    dsimp only
    rw [hb]
  · intro p0 p1 iv e hs h0 h1
    unfold decrypt_token
    rw [hs]
    dsimp only
    rw [h0]
    dsimp only
    rw [h1]
  · intro p hp
    unfold b64decode
    rw [if_neg hp]
  · intro p hp hrun
    unfold b64decode
    rw [if_pos hp, hrun]

/-- C2 witness for the amended claim, at concrete inputs: the empty string
and a three-part string hit the format error; a part containing the
non-ASCII code point 233 hits the ASCII `ValueError` (either position); a
one-character base64 part hits the binascii error (either position); and the
b64decode error characterizations at those parts. -/
theorem c2_malformed_witness :
    decrypt_token [] [107] (fun _ b => b) = .error .formatValueError ∧
    decrypt_token [65, 58, 65, 58, 65] [107] (fun _ b => b) =
      .error .formatValueError ∧
    decrypt_token [233, 58, 65] [107] (fun _ b => b) = .error .asciiValueError ∧
    decrypt_token [65, 65, 65, 65, 58, 233] [107] (fun _ b => b) =
      .error .asciiValueError ∧
    decrypt_token [65, 58, 65] [107] (fun _ b => b) = .error .binasciiError ∧
    decrypt_token [65, 65, 65, 65, 58, 65] [107] (fun _ b => b) =
      .error .binasciiError ∧
    b64decode [233] = .error .asciiValueError ∧
    b64decode [65] = .error .binasciiError := by
  refine ⟨(c2_malformed_amended [] [107] (fun _ b => b)).1 (by decide),
    (c2_malformed_amended [65, 58, 65, 58, 65] [107] (fun _ b => b)).1 (by decide),
    (c2_malformed_amended [233, 58, 65] [107] (fun _ b => b)).2.1 [233] [65]
      .asciiValueError (by decide) (by decide),
    (c2_malformed_amended [65, 65, 65, 65, 58, 233] [107] (fun _ b => b)).2.2.1
      [65, 65, 65, 65] [233] [0, 0, 0] .asciiValueError (by decide) (by decide)
      (by decide),
    (c2_malformed_amended [65, 58, 65] [107] (fun _ b => b)).2.1 [65] [65]
      .binasciiError (by decide) (by decide),
    (c2_malformed_amended [65, 65, 65, 65, 58, 65] [107] (fun _ b => b)).2.2.1
      [65, 65, 65, 65] [65] [0, 0, 0] .binasciiError (by decide) (by decide)
      (by decide),
    (c2_malformed_amended [] [107] (fun _ b => b)).2.2.2.1 [233] (by decide),
    (c2_malformed_amended [] [107] (fun _ b => b)).2.2.2.2 [65] (by decide)
      (by decide)⟩

/-- C10: decrypt's padding strip indexes the last byte of the block-cipher
output without an emptiness guard: for every secret, the input
`"<base64 of 16 zero bytes>:"` (second segment decoding to zero bytes) makes
`decrypt_token` fail with the out-of-range `IndexError`, not the
malformed-token `ValueError`. -/
theorem c10_index_error (key : PyStr) (hkey : validStr key)
    (D : Bytes → Bytes → Bytes) :
    decrypt_token (b64encode (List.replicate 16 0) ++ [58]) key D =
      .error .indexError := by
  have hsplit : splitOn58 (b64encode (List.replicate 16 0) ++ [58]) =
      [b64encode (List.replicate 16 0), []] := by
    have h : b64encode (List.replicate 16 0) ++ [58] =
        b64encode (List.replicate 16 0) ++ 58 :: [] := rfl
    rw [h]
    exact splitOn58_append _ _ (b64encode_ne58 _) (by intro c hc; simp at hc)
  unfold decrypt_token
  rw [hsplit]
  dsimp only
  rw [b64decode_encode (List.replicate 16 0) (by decide)]
  have h2 : b64decode ([] : PyStr) = .ok [] := rfl
  rw [h2]
  dsimp only
  rw [utf8Enc?_eq key hkey]
  dsimp only
  rfl

/-- C10 witness at a concrete secret and block map. -/
theorem c10_index_error_witness :
    decrypt_token (b64encode (List.replicate 16 0) ++ [58]) [107] (fun _ b => b) =
      .error .indexError :=
  c10_index_error [107] (by decide) (fun _ b => b)

theorem cbcDecBlocks_len16 (D : Bytes → Bytes → Bytes) (k : Bytes)
    (hD16 : ∀ kk b, b.length = 16 → (D kk b).length = 16) :
    ∀ (cs : List Bytes) (prev : Bytes), prev.length = 16 → (∀ c ∈ cs, c.length = 16) →
      ∀ d ∈ cbcDecBlocks D k prev cs, d.length = 16 := by
  intro cs
  induction cs with
  | nil => intro prev _ _ d hd; simp [cbcDecBlocks] at hd
  | cons c cs ih =>
    intro prev hprev hcs d hd
    simp only [cbcDecBlocks, List.mem_cons] at hd
    rcases hd with hd | hd
    · subst hd
      rw [zipXor_length, hD16 k c (hcs c (by simp)), hprev]
      rfl
    · exact ih c (hcs c (by simp)) (fun e he => hcs e (by simp [he])) d hd

/-- C5: for every plaintext string (the empty string included) and every
secret, `encrypt_token` does not raise, and the base64-decoded ciphertext
segment of its output has positive length that is a multiple of 16 bytes;
its length is `len + (16 - len % 16)` for a `len`-byte plaintext, so an
already aligned plaintext (zero-length included) still gains a full 16-byte
padding block. -/
theorem c5_encrypt_shape
    (E : Bytes → Bytes → Bytes)
    (hE16 : ∀ kk b, b.length = 16 → (E kk b).length = 16)
    (hE255 : ∀ kk b, (∀ x ∈ b, x < 256) → ∀ x ∈ E kk b, x < 256)
    (token key : PyStr) (ht : validStr token) (hk : validStr key)
    (iv : Bytes) (hiv : iv.length = 16) (hivb : ∀ x ∈ iv, x < 256) :
    ∃ ct : Bytes,
      encrypt_token token key E iv = .ok (b64encode iv ++ 58 :: b64encode ct) ∧
      b64decode (b64encode ct) = .ok ct ∧
      ct.length % 16 = 0 ∧ 0 < ct.length ∧
      ct.length = (utf8Encode token).length + (16 - (utf8Encode token).length % 16) := by
  have hpadmod : (pkcs7Pad (utf8Encode token)).length % 16 = 0 := pkcs7Pad_mod _
  have hpb16 : ∀ b ∈ toBlocks (pkcs7Pad (utf8Encode token)), b.length = 16 :=
    toBlocks_len16 _ hpadmod
  have henc16 : ∀ c ∈ cbcEncBlocks E (encKeyBytes (utf8Encode key)) iv
      (toBlocks (pkcs7Pad (utf8Encode token))), c.length = 16 :=
    cbcEncBlocks_len16 E _ hE16 _ iv hiv hpb16
  have hctb : ∀ x ∈ (cbcEncBlocks E (encKeyBytes (utf8Encode key)) iv
      (toBlocks (pkcs7Pad (utf8Encode token)))).flatten, x < 256 := by
    intro x hx
    rcases List.mem_flatten.mp hx with ⟨c, hc, hxc⟩
    refine cbcEncBlocks_lt E _ hE255 _ iv hivb ?_ c hc x hxc
    intro b hb y hy
    exact pkcs7Pad_lt _ (utf8Encode_lt token ht) y (toBlocks_mem_mem _ b hb y hy)
  have hlen : ((cbcEncBlocks E (encKeyBytes (utf8Encode key)) iv
      (toBlocks (pkcs7Pad (utf8Encode token)))).flatten).length =
      (pkcs7Pad (utf8Encode token)).length := by
    rw [flatten_len16 _ henc16, cbcEncBlocks_length]
    conv_rhs => rw [← flatten_toBlocks (pkcs7Pad (utf8Encode token)) hpadmod]
    rw [flatten_len16 _ hpb16]
  refine ⟨(cbcEncBlocks E (encKeyBytes (utf8Encode key)) iv
    (toBlocks (pkcs7Pad (utf8Encode token)))).flatten, ?_, ?_, ?_, ?_, ?_⟩
  · unfold encrypt_token
    rw [utf8Enc?_eq token ht, utf8Enc?_eq key hk]
  · exact b64decode_encode _ hctb
  · rw [hlen]
    exact hpadmod
  · rw [hlen, pkcs7Pad_length]
    omega
  · rw [hlen, pkcs7Pad_length]

/-- C5 witness at a one-character plaintext, a concrete secret and the zero
IV. -/
theorem c5_encrypt_shape_witness :
    ∃ ct : Bytes,
      encrypt_token [65] [107] (fun _ b => b) (List.replicate 16 0) =
        .ok (b64encode (List.replicate 16 0) ++ 58 :: b64encode ct) ∧
      b64decode (b64encode ct) = .ok ct ∧
      ct.length % 16 = 0 ∧ 0 < ct.length ∧
      ct.length = (utf8Encode [65]).length + (16 - (utf8Encode [65]).length % 16) :=
  c5_encrypt_shape (fun _ b => b) (fun _ _ h => h) (fun _ _ h => h)
    [65] [107] (by decide) (by decide) (List.replicate 16 0) (by decide) (by decide)

/-- C6: on a well-formed token `"<b64 iv>:<b64 ct>"`, decrypt reads the last
byte of the block-cipher output as the padding length: when it lies in 1..16
exactly that many trailing bytes are stripped before UTF-8 decoding, and
otherwise the output is left entirely unstripped rather than failing. -/
theorem c6_lenient_strip
    (D : Bytes → Bytes → Bytes)
    (hD16 : ∀ kk b, b.length = 16 → (D kk b).length = 16)
    (key : PyStr) (hk : validStr key)
    (iv ct : Bytes) (hiv : iv.length = 16) (hivb : ∀ x ∈ iv, x < 256)
    (hctb : ∀ x ∈ ct, x < 256) (hmod : ct.length % 16 = 0) (hne : ¬ ct = []) :
    decrypt_token (b64encode iv ++ 58 :: b64encode ct) key D =
      (match utf8Decode
          (if 0 < ((cbcDecBlocks D (decKeyBytes (utf8Encode key)) iv
                (toBlocks ct)).flatten).getLast?.getD 0 ∧
              ((cbcDecBlocks D (decKeyBytes (utf8Encode key)) iv
                (toBlocks ct)).flatten).getLast?.getD 0 ≤ 16 then
            ((cbcDecBlocks D (decKeyBytes (utf8Encode key)) iv
              (toBlocks ct)).flatten).take
              (((cbcDecBlocks D (decKeyBytes (utf8Encode key)) iv
                (toBlocks ct)).flatten).length -
                ((cbcDecBlocks D (decKeyBytes (utf8Encode key)) iv
                  (toBlocks ct)).flatten).getLast?.getD 0)
          else (cbcDecBlocks D (decKeyBytes (utf8Encode key)) iv
            (toBlocks ct)).flatten) with
        | some s => .ok s
        | none => .error .unicodeDecodeError) := by
  have hb16 : ∀ b ∈ toBlocks ct, b.length = 16 := toBlocks_len16 _ hmod
  have hd16 : ∀ d ∈ cbcDecBlocks D (decKeyBytes (utf8Encode key)) iv (toBlocks ct),
      d.length = 16 := cbcDecBlocks_len16 D _ hD16 _ iv hiv hb16
  have hdd : ¬ (cbcDecBlocks D (decKeyBytes (utf8Encode key)) iv
      (toBlocks ct)).flatten = [] := by
    intro hcon
    have hlen := congrArg List.length hcon
    rw [flatten_len16 _ hd16, cbcDecBlocks_length] at hlen
    simp only [List.length_nil] at hlen
    have h0 : toBlocks ct = [] := List.length_eq_zero.mp (by omega)
    exact toBlocks_ne_nil ct hne h0
  rw [decrypt_token_wellformed key hk D iv ct hiv hivb hctb hmod, if_neg hdd]
  rfl

/-- C6 witness: a concrete one-block ciphertext whose decryption ends in 15,
so 15 bytes are stripped and the plaintext "A" remains. -/
theorem c6_lenient_strip_witness :
    decrypt_token (b64encode (List.replicate 16 0) ++ 58 ::
        b64encode (List.replicate 15 65 ++ [15])) [107] (fun _ b => b) =
      (match utf8Decode
          (if 0 < ((cbcDecBlocks (fun _ b => b) (decKeyBytes (utf8Encode [107]))
                (List.replicate 16 0)
                (toBlocks (List.replicate 15 65 ++ [15]))).flatten).getLast?.getD 0 ∧
              ((cbcDecBlocks (fun _ b => b) (decKeyBytes (utf8Encode [107]))
                (List.replicate 16 0)
                (toBlocks (List.replicate 15 65 ++ [15]))).flatten).getLast?.getD 0 ≤ 16 then
            ((cbcDecBlocks (fun _ b => b) (decKeyBytes (utf8Encode [107]))
              (List.replicate 16 0)
              (toBlocks (List.replicate 15 65 ++ [15]))).flatten).take
              (((cbcDecBlocks (fun _ b => b) (decKeyBytes (utf8Encode [107]))
                (List.replicate 16 0)
                (toBlocks (List.replicate 15 65 ++ [15]))).flatten).length -
                ((cbcDecBlocks (fun _ b => b) (decKeyBytes (utf8Encode [107]))
                  (List.replicate 16 0)
                  (toBlocks (List.replicate 15 65 ++ [15]))).flatten).getLast?.getD 0)
          else (cbcDecBlocks (fun _ b => b) (decKeyBytes (utf8Encode [107]))
            (List.replicate 16 0) (toBlocks (List.replicate 15 65 ++ [15]))).flatten) with
        | some s => .ok s
        | none => .error .unicodeDecodeError) :=
  c6_lenient_strip (fun _ b => b) (fun _ _ h => h) [107] (by decide)
    (List.replicate 16 0) (List.replicate 15 65 ++ [15]) (by decide) (by decide)
    (by decide) (by decide) (by decide)

/-- C3: `strava_update_user_tokens` reads the strava document and branches:
absent — create it with the full new token set via `set(..., merge=True)`;
present — overwrite exactly the four fields `accessToken`, `refreshToken`,
`expiresAt`, `lastTokenRefresh` and touch no other field of the document. -/
theorem c3_update_user_tokens {α : Type} (store : Option (List (TokField × α)))
    (new_tokens : List (TokField × α))
    (ha : ¬ dget new_tokens TokField.accessToken = none)
    (hr : ¬ dget new_tokens TokField.refreshToken = none)
    (he : ¬ dget new_tokens TokField.expiresAt = none)
    (hl : ¬ dget new_tokens TokField.lastTokenRefresh = none) :
    (store = none →
      strava_update_user_tokens store new_tokens =
        ([FsEv.evGet, FsEv.evSet], .ok (some new_tokens))) ∧
    (∀ d, store = some d →
      ∃ d2, strava_update_user_tokens store new_tokens =
          ([FsEv.evGet, FsEv.evUpdate], .ok (some d2)) ∧
        dget d2 TokField.accessToken = dget new_tokens TokField.accessToken ∧
        dget d2 TokField.refreshToken = dget new_tokens TokField.refreshToken ∧
        dget d2 TokField.expiresAt = dget new_tokens TokField.expiresAt ∧
        dget d2 TokField.lastTokenRefresh = dget new_tokens TokField.lastTokenRefresh ∧
        ∀ f, ¬ f = TokField.accessToken → ¬ f = TokField.refreshToken →
          ¬ f = TokField.expiresAt → ¬ f = TokField.lastTokenRefresh →
          dget d2 f = dget d f) := by
  constructor
  · intro h
    subst h
    rfl
  · intro d hd
    subst hd
    cases hA : dget new_tokens TokField.accessToken with
    | none => exact absurd hA ha
    | some a =>
      cases hR : dget new_tokens TokField.refreshToken with
      | none => exact absurd hR hr
      | some r =>
        cases hE : dget new_tokens TokField.expiresAt with
        | none => exact absurd hE he
        | some e2 =>
          cases hL : dget new_tokens TokField.lastTokenRefresh with
          | none => exact absurd hL hl
          | some l =>
            refine ⟨(TokField.accessToken, a) :: (TokField.refreshToken, r) ::
              (TokField.expiresAt, e2) :: (TokField.lastTokenRefresh, l) :: d,
              ?_, ?_, ?_, ?_, ?_, ?_⟩
            · unfold strava_update_user_tokens
              rw [hA, hR, hE, hL]
            · simp [dget, hA]
            · simp [dget, hR]
            · simp [dget, hE]
            · simp [dget, hL]
            · intro f hf1 hf2 hf3 hf4
              simp only [dget]
              rw [if_neg (fun h => hf1 h.symm), if_neg (fun h => hf2 h.symm),
                if_neg (fun h => hf3 h.symm), if_neg (fun h => hf4 h.symm)]

/-- C3 witness: a concrete document with an unrelated sibling field, updated
with a concrete four-field token set; and the creation branch at `none`. -/
theorem c3_update_user_tokens_witness :
    ((some [(TokField.extra 0, 5)] : Option (List (TokField × Nat))) = none →
      strava_update_user_tokens (some [(TokField.extra 0, 5)])
          [(TokField.accessToken, 1), (TokField.refreshToken, 2),
            (TokField.expiresAt, 3), (TokField.lastTokenRefresh, 4)] =
        ([FsEv.evGet, FsEv.evSet], .ok (some [(TokField.accessToken, 1),
          (TokField.refreshToken, 2), (TokField.expiresAt, 3),
          (TokField.lastTokenRefresh, 4)]))) ∧
    (∀ d, (some [(TokField.extra 0, 5)] : Option (List (TokField × Nat))) = some d →
      ∃ d2, strava_update_user_tokens (some [(TokField.extra 0, 5)])
          [(TokField.accessToken, 1), (TokField.refreshToken, 2),
            (TokField.expiresAt, 3), (TokField.lastTokenRefresh, 4)] =
          ([FsEv.evGet, FsEv.evUpdate], .ok (some d2)) ∧
        dget d2 TokField.accessToken = dget [(TokField.accessToken, 1),
          (TokField.refreshToken, 2), (TokField.expiresAt, 3),
          (TokField.lastTokenRefresh, 4)] TokField.accessToken ∧
        dget d2 TokField.refreshToken = dget [(TokField.accessToken, 1),
          (TokField.refreshToken, 2), (TokField.expiresAt, 3),
          (TokField.lastTokenRefresh, 4)] TokField.refreshToken ∧
        dget d2 TokField.expiresAt = dget [(TokField.accessToken, 1),
          (TokField.refreshToken, 2), (TokField.expiresAt, 3),
          (TokField.lastTokenRefresh, 4)] TokField.expiresAt ∧
        dget d2 TokField.lastTokenRefresh = dget [(TokField.accessToken, 1),
          (TokField.refreshToken, 2), (TokField.expiresAt, 3),
          (TokField.lastTokenRefresh, 4)] TokField.lastTokenRefresh ∧
        ∀ f, ¬ f = TokField.accessToken → ¬ f = TokField.refreshToken →
          ¬ f = TokField.expiresAt → ¬ f = TokField.lastTokenRefresh →
          dget d2 f = dget d f) :=
  c3_update_user_tokens (some [(TokField.extra 0, 5)])
    [(TokField.accessToken, 1), (TokField.refreshToken, 2),
      (TokField.expiresAt, 3), (TokField.lastTokenRefresh, 4)]
    (by decide) (by decide) (by decide) (by decide)

/-- True exactly for the `TokenRefreshError` wrapper the specification
describes. -/
def isTokenRefreshError : PyExc → Bool
  | .tokenRefreshError _ => true
  | _ => false

/-- C4 counterexample: with working credentials and a decryptable token, an
OAuth client that raises `oauthError 7` makes `refresh` re-raise exactly
`oauthError 7` — not a `TokenRefreshError` wrapper — while the store sees
zero calls.  The claim's wrapped re-raise is refuted at this concrete
input. -/
theorem c4_counterexample :
    strava_refresh_oauth_token [107] (some [97]) (some [98])
        (fun _ _ _ => .error (.oauthError 7)) (fun _ b => b) (fun _ b => b)
        (List.replicate 16 0) (List.replicate 16 0) 0
        (b64encode (List.replicate 16 0) ++ 58 ::
          b64encode (List.replicate 15 65 ++ [15])) none =
      ([FsEv.evOauth], .error (.oauthError 7), none) ∧
    isTokenRefreshError (.oauthError 7) = false := by
  refine ⟨by decide, rfl⟩

/-- C4 (amended): when the OAuth client's token-refresh call raises, the
exception is logged and re-raised unchanged — the original exception object,
no `TokenRefreshError` wrapper exists in the code — and the document store
receives zero calls (the only collaborator event is the OAuth call itself;
the store state is untouched). -/
theorem c4_provider_failure_amended
    (encryption_key : PyStr) (cid csec : Option PyStr)
    (oauth : PyStr → PyStr → PyStr → Except PyExc TokResp)
    (E D : Bytes → Bytes → Bytes) (iv1 iv2 : Bytes) (now : Nat)
    (refresh_token : PyStr) (store : Option (List (TokField × PyVal)))
    (hcid : ¬ cid.getD [] = []) (hcsec : ¬ csec.getD [] = [])
    (rt : PyStr) (hdec : decrypt_token refresh_token encryption_key D = .ok rt)
    (ex : PyExc) (hoauth : ∀ a b c, oauth a b c = .error ex) :
    strava_refresh_oauth_token encryption_key cid csec oauth E D iv1 iv2 now
        refresh_token store =
      ([FsEv.evOauth], .error ex, store) := by
  unfold strava_refresh_oauth_token
  rw [if_neg (fun h => h.elim hcid hcsec)]
  rw [hdec]
  dsimp only
  rw [hoauth]

/-- C4 witness for the amended claim at the counterexample's concrete
inputs. -/
theorem c4_provider_failure_witness :
    strava_refresh_oauth_token [107] (some [97]) (some [98])
        (fun _ _ _ => .error (.oauthError 7)) (fun _ b => b) (fun _ b => b)
        (List.replicate 16 0) (List.replicate 16 0) 0
        (b64encode (List.replicate 16 0) ++ 58 ::
          b64encode (List.replicate 15 65 ++ [15])) none =
      ([FsEv.evOauth], .error (.oauthError 7), none) :=
  c4_provider_failure_amended [107] (some [97]) (some [98])
    (fun _ _ _ => .error (.oauthError 7)) (fun _ b => b) (fun _ b => b)
    (List.replicate 16 0) (List.replicate 16 0) 0
    (b64encode (List.replicate 16 0) ++ 58 ::
      b64encode (List.replicate 15 65 ++ [15])) none
    (by decide) (by decide) [65] (by decide) (.oauthError 7) (fun _ _ _ => rfl)

/-- C7: when the fetched provider secret lacks the client id or the client
secret (absent, or empty — Python's `if not client_id` truthiness), refresh
fails fast with the missing-credentials `ValueError` and neither the OAuth
call nor any document-store operation is attempted (no collaborator events,
store untouched). -/
theorem c7_missing_creds
    (encryption_key : PyStr) (cid csec : Option PyStr)
    (oauth : PyStr → PyStr → PyStr → Except PyExc TokResp)
    (E D : Bytes → Bytes → Bytes) (iv1 iv2 : Bytes) (now : Nat)
    (refresh_token : PyStr) (store : Option (List (TokField × PyVal)))
    (h : cid.getD [] = [] ∨ csec.getD [] = []) :
    strava_refresh_oauth_token encryption_key cid csec oauth E D iv1 iv2 now
        refresh_token store =
      ([], .error .credsValueError, store) := by
  unfold strava_refresh_oauth_token
  rw [if_pos h]

/-- C7 witness: a missing client id. -/
theorem c7_missing_creds_witness :
    strava_refresh_oauth_token [107] none (some [98])
        (fun _ _ _ => .error (.oauthError 7)) (fun _ b => b) (fun _ b => b)
        (List.replicate 16 0) (List.replicate 16 0) 0 [65] none =
      ([], .error .credsValueError, none) :=
  c7_missing_creds [107] none (some [98]) (fun _ _ _ => .error (.oauthError 7))
    (fun _ b => b) (fun _ b => b) (List.replicate 16 0) (List.replicate 16 0) 0
    [65] none (Or.inl rfl)

/-- C8: the spec (and `decrypt_token`'s own docstring, "str or bytes")
declare that the secret may be raw bytes, and both bodies carry a dead
`isinstance(key, str)` branch for it — but the `@beartype` decorator on the
`key: str` annotation rejects a `bytes` secret with a parameter-type
violation before the body runs.  The claim is right about the intended
behaviour; the annotation makes the code reject bytes. -/
theorem c8_bytes_key_rejected :
    encrypt_token_typed [65] (StrOrBytes.bytes (List.replicate 32 48))
        (fun _ b => b) (List.replicate 16 0) = .error .beartypeParamViolation ∧
    decrypt_token_typed (b64encode (List.replicate 16 0) ++ 58 ::
        b64encode (List.replicate 15 65 ++ [15]))
        (StrOrBytes.bytes (List.replicate 32 48)) (fun _ b => b) =
      .error .beartypeParamViolation :=
  ⟨rfl, rfl⟩

/-- C9: a payload that is valid UTF-8 but not JSON ("hello") reaches the
`except JSONDecodeError` branch, which returns the raw string — and the
`-> dict` annotation under `@beartype` then raises a return-type violation,
so `get_secret` raises instead of returning the raw string the spec
describes.  A payload parsing to a JSON object is returned as the mapping. -/
theorem c9_raw_string_rejected :
    get_secret (fun _ => none) true (utf8Encode [104, 101, 108, 108, 111]) =
      .error .beartypeReturnViolation ∧
    get_secret (fun _ => some (JVal.jobj [])) true (utf8Encode [104]) =
      .ok (JVal.jobj []) :=
  ⟨rfl, rfl⟩
